import Mathlib

/-!
Verification of the `sv` package of thegeeklab/git-sv: the commit-message
parser/validator, the issue-id resolver, the semantic-version bump resolver
and the release-note section assembler, shallowly embedded in Lean.
Strings are handled through their character lists so that every definition
evaluates in the kernel.
-/

set_option maxRecDepth 8192

namespace GitSv

/-- Model of `github.com/Masterminds/semver/v3`'s `Version`: three numeric
components plus prerelease and build-metadata strings. -/
structure Version where
  major : Nat
  minor : Nat
  patch : Nat
  pre : String
  metadata : String
deriving DecidableEq, Repr

/-- `Version.IncMajor`: bumps major, zeroes minor/patch, clears pre/metadata. -/
def Version.incMajor (v : Version) : Version :=
  ⟨v.major + 1, 0, 0, "", ""⟩

/-- `Version.IncMinor`: bumps minor, zeroes patch, clears pre/metadata. -/
def Version.incMinor (v : Version) : Version :=
  ⟨v.major, v.minor + 1, 0, "", ""⟩

/-- `Version.IncPatch`: with a prerelease present it only drops the
prerelease; otherwise it bumps patch. -/
def Version.incPatch (v : Version) : Version :=
  if v.pre ≠ "" then ⟨v.major, v.minor, v.patch, "", ""⟩
  else ⟨v.major, v.minor, v.patch + 1, "", ""⟩

/-- `versionType` from `sv/commit.go` (iota order none, patch, minor, major). -/
inductive VersionType where
  | none
  | patch
  | minor
  | major
deriving DecidableEq, Repr, Fintype

/-- Numeric value of a `versionType` constant (the Go iota value). -/
def VersionType.toNat : VersionType → Nat
  | .none => 0
  | .patch => 1
  | .minor => 2
  | .major => 3

/-- `CommitMessage` from `sv/message.go`; the Go `map[string]string` metadata
is modelled as an association list (only lookups and overwriting inserts are
used by the code). -/
structure CommitMessage where
  type : String
  scope : String
  description : String
  body : String
  isBreakingChange : Bool
  metadata : List (String × String)
deriving DecidableEq, Repr

/-- `CommitLog` from `sv/commit.go`. -/
structure CommitLog where
  date : String
  timestamp : Int
  authorName : String
  hash : String
  message : CommitMessage
deriving DecidableEq, Repr

/-- `contains` from `sv/message.go`: linear membership scan. -/
def containsStr (value : String) (content : List String) : Bool :=
  content.any (fun v => value == v)

/-- `SemVerCommitProcessor` from `sv/commit.go`; the Go `map[string]struct` type
sets are modelled by their key lists (only membership is used). -/
structure SemVerCommitProcessor where
  majorVersionTypes : List String
  minorVersionTypes : List String
  patchVersionTypes : List String
  knownTypes : List String
  includeUnknownTypeAsPatch : Bool
deriving Repr

/-- `SemVerCommitProcessor.versionTypeToUpdate` from `sv/commit.go`. -/
def SemVerCommitProcessor.versionTypeToUpdate
    (p : SemVerCommitProcessor) (commit : CommitLog) : VersionType :=
  if commit.message.isBreakingChange then .major
  else if containsStr commit.message.type p.majorVersionTypes then .major
  else if containsStr commit.message.type p.minorVersionTypes then .minor
  else if containsStr commit.message.type p.patchVersionTypes then .patch
  else if !containsStr commit.message.type p.knownTypes && p.includeUnknownTypeAsPatch then .patch
  else .none

/-- `updateVersion` from `sv/commit.go`. -/
def updateVersion (version : Version) (versionToUpdate : VersionType) : Version :=
  match versionToUpdate with
  | .major => version.incMajor
  | .minor => version.incMinor
  | .patch => version.incPatch
  | .none => version

/-- One step of the aggregation loop in `NextVersion`:
`if v := p.versionTypeToUpdate(commit); v > versionToUpdate { versionToUpdate = v }`. -/
def bumpStep (p : SemVerCommitProcessor) (acc : VersionType) (commit : CommitLog) : VersionType :=
  let v := p.versionTypeToUpdate commit
  if acc.toNat < v.toNat then v else acc

/-- The aggregated bump level computed by the loop at the top of `NextVersion`. -/
def SemVerCommitProcessor.aggregateVersionType
    (p : SemVerCommitProcessor) (commits : List CommitLog) : VersionType :=
  commits.foldl (bumpStep p) .none

/-- `SemVerCommitProcessor.NextVersion` from `sv/commit.go`; the `*semver.Version`
nil pointer is modelled by `Option`. -/
def SemVerCommitProcessor.NextVersion (p : SemVerCommitProcessor)
    (version : Option Version) (commits : List CommitLog) : Option Version × Bool :=
  let versionToUpdate := p.aggregateVersionType commits
  let updated := versionToUpdate != VersionType.none
  match version with
  | Option.none => (Option.none, updated)
  | Option.some v =>
    let newVersion := updateVersion v versionToUpdate
    let newVersion' :=
      if newVersion.major == 0 && newVersion.minor == 0 then updateVersion v VersionType.minor
      else newVersion
    (Option.some newVersion', updated)

end GitSv

namespace GitSv

/-- Example processor configuration: `fix` is a patch-level type, `feat` and
`fix` are the known types, unknown types count as patch. -/
def procEx : SemVerCommitProcessor :=
  ⟨[], ["feat"], ["fix"], ["feat", "fix"], true⟩

/-- A commit whose message classifies as patch under `procEx`. -/
def logFix : CommitLog :=
  ⟨"", 0, "alice", "h1", ⟨"fix", "", "remove bug", "", false, []⟩⟩

/-- A commit whose message classifies as minor under `procEx`. -/
def logFeat : CommitLog :=
  ⟨"", 0, "bob", "h2", ⟨"feat", "", "add thing", "", false, []⟩⟩

/-- C1: after applying the aggregated bump level to the current version, if the
result has major = 0 and minor = 0, `NextVersion` instead returns the
minor-level increment of the original current version (`updated` still
reflecting the aggregate level). -/
theorem nextVersion_zero_clamp (p : SemVerCommitProcessor) (v : Version)
    (commits : List CommitLog)
    (h : (updateVersion v (p.aggregateVersionType commits)).major = 0)
    (h' : (updateVersion v (p.aggregateVersionType commits)).minor = 0) :
    p.NextVersion (some v) commits =
      (some (updateVersion v VersionType.minor),
        p.aggregateVersionType commits != VersionType.none) := by
  unfold SemVerCommitProcessor.NextVersion
  simp [h, h']

/-- C1 witness: current version 0.0.1 with a single patch-level commit yields
0.1.0 (not 0.0.2), with `updated = true`. -/
theorem nextVersion_zero_clamp_witness :
    (updateVersion ⟨0, 0, 1, "", ""⟩ (procEx.aggregateVersionType [logFix])).major = 0 ∧
    (updateVersion ⟨0, 0, 1, "", ""⟩ (procEx.aggregateVersionType [logFix])).minor = 0 ∧
    procEx.NextVersion (some ⟨0, 0, 1, "", ""⟩) [logFix] = (some ⟨0, 1, 0, "", ""⟩, true) := by
  refine ⟨by decide, by decide, ?_⟩
  rw [nextVersion_zero_clamp procEx ⟨0, 0, 1, "", ""⟩ [logFix] (by decide) (by decide)]
  decide

/-- C2: classification of a single commit is total (one of the four levels, by
the type of `versionTypeToUpdate`), the breaking-change flag dominates, and a
non-breaking commit is classified by the major/minor/patch sets, then the
unknown-as-patch rule, then `none`. -/
theorem versionTypeToUpdate_spec (p : SemVerCommitProcessor) (c : CommitLog) :
    (c.message.isBreakingChange = true → p.versionTypeToUpdate c = .major) ∧
    (c.message.isBreakingChange = false →
      p.versionTypeToUpdate c =
        (if containsStr c.message.type p.majorVersionTypes then .major
         else if containsStr c.message.type p.minorVersionTypes then .minor
         else if containsStr c.message.type p.patchVersionTypes then .patch
         else if containsStr c.message.type p.knownTypes = false ∧
             p.includeUnknownTypeAsPatch = true then .patch
         else .none)) := by
  constructor
  · intro hb
    simp [SemVerCommitProcessor.versionTypeToUpdate, hb]
  · intro hb
    simp only [SemVerCommitProcessor.versionTypeToUpdate, hb, if_false, Bool.false_eq_true]
    by_cases h1 : containsStr c.message.type p.majorVersionTypes <;>
      by_cases h2 : containsStr c.message.type p.minorVersionTypes <;>
        by_cases h3 : containsStr c.message.type p.patchVersionTypes <;>
          by_cases h4 : containsStr c.message.type p.knownTypes <;>
            by_cases h5 : p.includeUnknownTypeAsPatch <;>
              simp [h1, h2, h3, h4, h5]

/-- C2 witness: a breaking-change commit of patch-level type is still
classified `major`, and a plain `fix` commit is classified `patch`. -/
theorem versionTypeToUpdate_spec_witness :
    procEx.versionTypeToUpdate ⟨"", 0, "eve", "h3", ⟨"fix", "", "d", "", true, []⟩⟩ =
      VersionType.major ∧
    procEx.versionTypeToUpdate logFix = VersionType.patch := by
  constructor
  · exact (versionTypeToUpdate_spec procEx ⟨"", 0, "eve", "h3", ⟨"fix", "", "d", "", true, []⟩⟩).1
      rfl
  · rw [(versionTypeToUpdate_spec procEx logFix).2 rfl]
    decide

/-- `bumpStep` is right-commutative: the aggregation loop body can process two
commits in either order. -/
theorem bumpStep_rightComm (p : SemVerCommitProcessor) (acc : VersionType)
    (c1 c2 : CommitLog) :
    bumpStep p (bumpStep p acc c1) c2 = bumpStep p (bumpStep p acc c2) c1 := by
  unfold bumpStep
  generalize p.versionTypeToUpdate c1 = u
  generalize p.versionTypeToUpdate c2 = w
  revert acc u w
  decide

/-- Folding `bumpStep` is invariant under permutation of the commit list. -/
theorem foldl_bumpStep_perm (p : SemVerCommitProcessor) {l1 l2 : List CommitLog}
    (h : l1.Perm l2) :
    ∀ acc, l1.foldl (bumpStep p) acc = l2.foldl (bumpStep p) acc := by
  induction h with
  | nil => intro acc; rfl
  | cons x _ ih =>
      intro acc
      simp only [List.foldl_cons]
      exact ih _
  | swap x y l =>
      intro acc
      simp only [List.foldl_cons]
      rw [bumpStep_rightComm]
  | trans _ _ ih1 ih2 =>
      intro acc
      rw [ih1, ih2]

/-- C8: `NextVersion` is order-independent: permuting the commit list leaves
the resulting (version, updated) pair unchanged. -/
theorem nextVersion_perm (p : SemVerCommitProcessor) (version : Option Version)
    {l1 l2 : List CommitLog} (h : l1.Perm l2) :
    p.NextVersion version l1 = p.NextVersion version l2 := by
  unfold SemVerCommitProcessor.NextVersion
  rw [show p.aggregateVersionType l1 = p.aggregateVersionType l2 from
    foldl_bumpStep_perm p h VersionType.none]

/-- C8 witness: swapping a concrete two-commit list does not change the result
of `NextVersion`. -/
theorem nextVersion_perm_witness :
    procEx.NextVersion (some ⟨1, 2, 3, "", ""⟩) [logFeat, logFix] =
      procEx.NextVersion (some ⟨1, 2, 3, "", ""⟩) [logFix, logFeat] := by
  exact nextVersion_perm procEx (some ⟨1, 2, 3, "", ""⟩) (List.Perm.swap logFix logFeat [])

/-- C10: when the current version is `0.0.x` and the aggregate classification
is `none` (e.g. the empty commit list), `NextVersion` returns
`updated = false` together with the minor increment of the current version, so
the returned version differs from the current one even though `updated` is
false. -/
theorem nextVersion_none_zero_zero (p : SemVerCommitProcessor) (v : Version)
    (commits : List CommitLog)
    (h1 : v.major = 0) (h2 : v.minor = 0)
    (h3 : p.aggregateVersionType commits = VersionType.none) :
    p.NextVersion (some v) commits = (some v.incMinor, false) := by
  unfold SemVerCommitProcessor.NextVersion
  rw [h3]
  simp [updateVersion, h1, h2]

/-- C10 witness: version 0.0.0 with no commits yields (0.1.0, updated = false). -/
theorem nextVersion_none_zero_zero_witness :
    procEx.NextVersion (some ⟨0, 0, 0, "", ""⟩) [] = (some ⟨0, 1, 0, "", ""⟩, false) := by
  rw [nextVersion_none_zero_zero procEx ⟨0, 0, 0, "", ""⟩ [] rfl rfl rfl]
  decide

/-- `[a-z]` character test. -/
def isLowerAZ (c : Char) : Bool :=
  'a' ≤ c && c ≤ 'z'

/-- `[a-z+]` character test (the subject-validation run class). -/
def isLowerPlus (c : Char) : Bool :=
  isLowerAZ c || c == '+'

/-- The tail `(!)?: (.*)` of the subject pattern in `parseSubjectMessage`
(`sv/message.go`): an optional bang, then a colon and a space, then the greedy
dot-star capture, which cannot cross a newline. Returns the bang flag and the
captured description characters. -/
def subjectTail : List Char → Option (Bool × List Char)
  | '!' :: ':' :: ' ' :: rest => some (true, rest.takeWhile (fun c => c ≠ '\n'))
  | ':' :: ' ' :: rest => some (false, rest.takeWhile (fun c => c ≠ '\n'))
  | _ => Option.none

/-- All ways to read `(.*)\)` starting right after an opening parenthesis: for
every `)` on the current line, the characters before it (a candidate scope
capture, which may itself contain `)`) and the characters after it, listed in
order of increasing capture length. -/
def scopeSplits : List Char → List (List Char × List Char)
  | [] => []
  | c :: t =>
    if c = '\n' then []
    else
      let rest := (scopeSplits t).map (fun p => (c :: p.1, p.2))
      if c = ')' then ([], t) :: rest else rest

/-- The greedy choice of the optional scope group `(\((.*)\))?`: among all
candidate closing parentheses whose continuation matches the tail, the last
(longest capture) wins, mirroring backtracking from the longest `.*`. -/
def scopePick (l : List Char) : Option (List Char × Bool × List Char) :=
  (scopeSplits l).foldl
    (fun acc p =>
      match subjectTail p.2 with
      | some r => some (p.1, r.1, r.2)
      | Option.none => acc)
    Option.none

/-- One attempt of the pattern `([a-z]+)(\((.*)\))?(!)?: (.*)` at a fixed
start position: a maximal nonempty `[a-z]+` run (shortening the run cannot
help, since the continuation never starts with a lowercase letter), then the
greedy optional scope group, then the tail. Returns (type capture, scope
capture when the group participates, bang, description capture). -/
def subjectAt (l : List Char) : Option (List Char × Option (List Char) × Bool × List Char) :=
  let ty := l.takeWhile isLowerAZ
  let rest := l.dropWhile isLowerAZ
  if ty.isEmpty then Option.none
  else
    match rest with
    | '(' :: r2 =>
      (match scopePick r2 with
       | some r => some (ty, some r.1, r.2.1, r.2.2)
       | Option.none => (subjectTail rest).map (fun q => (ty, Option.none, q.1, q.2)))
    | _ => (subjectTail rest).map (fun q => (ty, Option.none, q.1, q.2))

/-- Leftmost match of the subject pattern: the first start position at which
`subjectAt` succeeds, as in Go's `FindStringSubmatch`. -/
def subjectFind : List Char → Option (List Char × Option (List Char) × Bool × List Char)
  | [] => Option.none
  | c :: t =>
    match subjectAt (c :: t) with
    | some r => some r
    | Option.none => subjectFind t

/-- `strings.TrimSpace`: whitespace removed from both ends. -/
def trimSpace (s : String) : String :=
  String.mk (((s.data.dropWhile Char.isWhitespace).reverse.dropWhile Char.isWhitespace).reverse)

/-- `parseSubjectMessage` from `sv/message.go`: Go `FindStringSubmatch` with
the unanchored pattern `([a-z]+)(\((.*)\))?(!)?: (.*)` (leftmost match, greedy
subpatterns), returning (type, scope, trimmed description, bang). On no match:
empty type and scope, the whole input as description, no bang. -/
def parseSubjectMessage (message : String) : String × String × String × Bool :=
  match subjectFind message.data with
  | some r => (String.mk r.1, String.mk (r.2.1.getD []), trimSpace (String.mk r.2.2.2), r.2.2.1)
  | Option.none => ("", "", message, false)

/-- The tail of the spec's anchored subject pattern: `(!)?: (.*)$`, where `$`
(end of text) forces the description to take every remaining character and to
contain no newline. -/
def specTail : List Char → Option (Bool × List Char)
  | '!' :: ':' :: ' ' :: rest =>
    if rest.all (fun c => c ≠ '\n') then some (true, rest) else Option.none
  | ':' :: ' ' :: rest =>
    if rest.all (fun c => c ≠ '\n') then some (false, rest) else Option.none
  | _ => Option.none

/-- Modelled from the spec: the anchored subject pattern
`^([a-z]+)(\(([^)]*)\))?(!)?: (.*)$` that the spec says `Parse` uses. The
match must start at the beginning of the subject, the scope class excludes
`)` (so the first closing parenthesis ends the scope), and the description
runs to the end of the text. -/
def parseSubjectMessageSpec (message : String) : String × String × String × Bool :=
  let l := message.data
  let noMatch := ("", "", message, false)
  let ty := l.takeWhile isLowerAZ
  let rest := l.dropWhile isLowerAZ
  if ty.isEmpty then noMatch
  else
    match rest with
    | '(' :: r2 =>
      (match r2.dropWhile (fun c => c ≠ ')') with
       | ')' :: r3 =>
         (match specTail r3 with
          | some q =>
            (String.mk ty, String.mk (r2.takeWhile (fun c => c ≠ ')')),
              trimSpace (String.mk q.2), q.1)
          | Option.none => noMatch)
       | _ => noMatch)
    | _ =>
      (match specTail rest with
       | some q => (String.mk ty, "", trimSpace (String.mk q.2), q.1)
       | Option.none => noMatch)

/-- First index at which `pat` occurs as a prefix of a suffix of `l`: the
start of the leftmost match of a literal regex pattern. -/
def findPrefixIdx (pat : List Char) : List Char → Option Nat
  | [] => if pat.isPrefixOf ([] : List Char) then some 0 else Option.none
  | c :: t =>
    if pat.isPrefixOf (c :: t) then some 0
    else (findPrefixIdx pat t).map (· + 1)

/-- `extractFooterMetadata` from `sv/message.go`: Go `FindStringSubmatch` with
the unanchored pattern `key + ": (.*)"` (or `key + " (#.*)"` in hash style,
whose capture keeps the leading hash) over the whole text; the key is taken as
literal text (the footer keys used contain no regex metacharacters). The empty
string signals no match. -/
def extractFooterMetadata (key text : String) (useHash : Bool) : String :=
  match findPrefixIdx (if useHash then key ++ " #" else key ++ ": ").data text.data with
  | some i =>
    if useHash then
      String.mk ('#' :: (text.data.drop (i + (key ++ " #").data.length)
        |>.takeWhile (fun c => c ≠ '\n')))
    else
      String.mk (text.data.drop (i + (key ++ ": ").data.length)
        |>.takeWhile (fun c => c ≠ '\n'))
  | Option.none => ""

/-- Split a character list at newlines (keeping empty pieces). -/
def splitOnNl : List Char → List (List Char)
  | [] => [[]]
  | c :: t =>
    if c = '\n' then [] :: splitOnNl t
    else
      match splitOnNl t with
      | [] => [[c]]
      | l :: ls => (c :: l) :: ls

/-- Modelled from the spec: the line-anchored footer patterns `^key: (.*)$`
and `^key #(.*)$` of the spec, where the key must start a physical line; the
first matching line wins and its capture is the rest of that line. -/
def extractFooterMetadataSpec (key text : String) (useHash : Bool) : String :=
  let pat := if useHash then key ++ " #" else key ++ ": "
  match (splitOnNl text.data).find? (fun ln => pat.data.isPrefixOf ln) with
  | some ln =>
    let value := ln.drop pat.data.length
    if useHash then String.mk ('#' :: value) else String.mk value
  | Option.none => ""

/-- The token list produced by `bufio.Scanner` with `ScanLines`: split at
newlines, no trailing token after a final newline, no token at all for empty
input, and one trailing carriage return stripped from each line. -/
def scanLines (s : String) : List String :=
  if s.data.isEmpty then []
  else
    let raw := splitOnNl s.data
    let raw := if s.data.getLast? = some '\n' then raw.dropLast else raw
    raw.map (fun l => String.mk (if l.getLast? = some '\r' then l.dropLast else l))

/-- `splitCommitMessageContent` from `sv/message.go`: the first line is the
subject and the remaining lines joined by newlines are the body. -/
def splitCommitMessageContent (content : String) : String × String :=
  let lines := scanLines content
  (lines.headD "", String.intercalate "\n" (lines.drop 1))

/-- `removeCarriage` from `sv/message.go`: every carriage return removed. -/
def removeCarriage (commit : String) : String :=
  String.mk (commit.data.filter (fun c => c ≠ '\r'))

/-- Overwriting insert for a Go `map[string]string` modelled as an
association list. -/
def mdPut (md : List (String × String)) (k v : String) : List (String × String) :=
  (md.filter (fun p => p.1 != k)) ++ [(k, v)]

/-- Go map read with the zero-value default. -/
def mdGet (md : List (String × String)) (k : String) : String :=
  (md.lookup k).getD ""

/-- `CommitMessageScopeConfig` from `sv/message.go`. -/
structure CommitMessageScopeConfig where
  values : List String
deriving DecidableEq, Repr

/-- `CommitMessageFooterConfig` from `sv/message.go`; `addValuePfx` stands for
the Go field `AddValuePrefix`. -/
structure CommitMessageFooterConfig where
  key : String
  keySynonyms : List String
  useHash : Bool
  addValuePfx : String
deriving DecidableEq, Repr

/-- `CommitMessageIssueConfig` from `sv/message.go`. -/
structure CommitMessageIssueConfig where
  regex : String
deriving DecidableEq, Repr

/-- `CommitMessageConfig` from `sv/message.go`; the footer map is modelled as
an association list. The `header-selector` option is modelled as empty (its
general form would need compiling an arbitrary user regex), so `prepareHeader`
is the identity and `Parse` cannot fail. -/
structure CommitMessageConfig where
  types : List String
  scope : CommitMessageScopeConfig
  footer : List (String × CommitMessageFooterConfig)
  issue : CommitMessageIssueConfig
deriving DecidableEq, Repr

/-- `CommitMessageConfig.IssueFooterConfig` from `sv/message.go`. -/
def CommitMessageConfig.issueFooterConfig (c : CommitMessageConfig) : CommitMessageFooterConfig :=
  (c.footer.lookup "issue").getD ⟨"", [], false, ""⟩

/-- `BranchesConfig` from `sv/message.go`; `prefixPattern`/`suffixPattern`
stand for the Go fields `Prefix`/`Suffix`. -/
structure BranchesConfig where
  prefixPattern : String
  suffixPattern : String
  disableIssue : Bool
  skip : List String
  skipDetached : Option Bool
deriving DecidableEq, Repr

/-- `BaseMessageProcessor` from `sv/message.go`. -/
structure BaseMessageProcessor where
  messageCfg : CommitMessageConfig
  branchesCfg : BranchesConfig
deriving DecidableEq, Repr

/-- The inner loop of `Parse` over a footer's key and its synonyms: the first
key whose extraction is nonempty wins. -/
def firstFooterValue (body : String) (useHash : Bool) : List String → String
  | [] => ""
  | k :: ks =>
    let v := extractFooterMetadata k body useHash
    if v != "" then v else firstFooterValue body useHash ks

/-- `BaseMessageProcessor.Parse` from `sv/message.go` with an empty
`header-selector` (the effective subject is the raw subject). -/
def BaseMessageProcessor.Parse (p : BaseMessageProcessor) (subject body : String) : CommitMessage :=
  match parseSubjectMessage subject with
  | (ty, sc, d, brk) =>
    let bodyClean := removeCarriage body
    let md1 := p.messageCfg.footer.foldl
      (fun md kv =>
        if kv.2.key != "" then
          let tagValue := firstFooterValue bodyClean kv.2.useHash (kv.2.key :: kv.2.keySynonyms)
          if tagValue != "" then mdPut md kv.1 tagValue else md
        else md)
      []
    let md2 := if brk then mdPut md1 "breaking-change" d else md1
    let bcFooter := extractFooterMetadata "BREAKING CHANGE" bodyClean false
    let md3 := if bcFooter != "" then mdPut md2 "breaking-change" bcFooter else md2
    { type := ty, scope := sc, description := d, body := bodyClean,
      isBreakingChange := if bcFooter != "" then true else brk, metadata := md3 }

/-- `strings.TrimPrefix` for the single hash mark in `formatIssueFooter`. -/
def trimHashMark (s : String) : String :=
  match s.data with
  | '#' :: t => String.mk t
  | _ => s

/-- `formatIssueFooter` from `sv/message.go`. -/
def formatIssueFooter (cfg : CommitMessageFooterConfig) (issue : String) : String :=
  let issue := if !cfg.addValuePfx.data.isPrefixOf issue.data then cfg.addValuePfx ++ issue else issue
  if cfg.useHash then cfg.key ++ " #" ++ trimHashMark issue
  else cfg.key ++ ": " ++ issue

/-- `BaseMessageProcessor.Format` from `sv/message.go`: returns (header, body,
footer). -/
def BaseMessageProcessor.Format (p : BaseMessageProcessor) (msg : CommitMessage) :
    String × String × String :=
  let header := msg.type ++ (if msg.scope != "" then "(" ++ msg.scope ++ ")" else "")
    ++ ": " ++ msg.description
  let breaking := mdGet msg.metadata "breaking-change"
  let footer1 := if breaking != "" then "BREAKING CHANGE: " ++ breaking else ""
  let footer :=
    match msg.metadata.lookup "issue" with
    | some issue =>
      if p.messageCfg.issueFooterConfig.key != "" then
        (if footer1 != "" then footer1 ++ "\n" else footer1)
          ++ formatIssueFooter p.messageCfg.issueFooterConfig issue
      else footer1
    | Option.none => footer1
  (header, msg.body, footer)

/-- The tail `!?: .+$` of the validation pattern: optional bang, colon, space,
then at least one character running to the end of the text with no newline. -/
def validTail : List Char → Bool
  | '!' :: ':' :: ' ' :: rest => !rest.isEmpty && rest.all (fun c => c ≠ '\n')
  | ':' :: ' ' :: rest => !rest.isEmpty && rest.all (fun c => c ≠ '\n')
  | _ => false

/-- Scan for the optional group of the validation pattern `(\(.+\))?` after an
opening parenthesis: some closing parenthesis with a nonempty inner text (any
characters but newlines, closing parentheses included) must be followed by a
matching tail. `n` counts the inner characters seen so far. -/
def validScopeScan : List Char → Nat → Bool
  | [], _ => false
  | c :: t, n =>
    if c == '\n' then false
    else (c == ')' && n != 0 && validTail t) || validScopeScan t (n + 1)

/-- The `MatchString` of the anchored subject pattern
`^[a-z+]+(\(.+\))?!?: .+$` in `Validate` (`sv/message.go`): a maximal
nonempty `[a-z+]` run (the continuation never starts with a run character),
then the optional parenthesised group or directly the tail. -/
def validSubject (subject : String) : Bool :=
  let l := subject.data
  let rest := l.dropWhile isLowerPlus
  !(l.takeWhile isLowerPlus).isEmpty &&
    (match rest with
     | '(' :: r2 => validScopeScan r2 0 || validTail rest
     | _ => validTail rest)

/-- The `MatchString` of `^[a-z]+.*$` in `ValidateDescription`
(`sv/message.go`): nonempty, first character lowercase and, because `.`
excludes newlines while `$` anchors at the end of the text, no newline
anywhere. -/
def validDescription (description : String) : Bool :=
  match description.data with
  | [] => false
  | c :: _ => isLowerAZ c && description.data.all (fun ch => ch ≠ '\n')

/-- Modelled from the spec: the description pattern `^[a-z].*` the claim
states (first character lowercase; nothing else constrained). -/
def validDescriptionSpec (description : String) : Bool :=
  match description.data with
  | [] => false
  | c :: _ => isLowerAZ c

deriving instance DecidableEq for Except

/-- The distinct error reasons produced by `Validate` (the
`errInvalidCommitMessage` wrappings) and `IssueID` (`errInvalidIssueRegex`). -/
inductive SvError where
  | invalidSubject (subject : String)
  | invalidType (types : List String)
  | invalidScope (values : List String)
  | invalidDescription (description : String)
  | invalidIssueRegex (pattern : String)
deriving DecidableEq, Repr

/-- `BaseMessageProcessor.ValidateType` from `sv/message.go`. -/
def BaseMessageProcessor.ValidateType (p : BaseMessageProcessor) (ctype : String) :
    Except SvError Unit :=
  if ctype == "" || !containsStr ctype p.messageCfg.types then
    .error (.invalidType p.messageCfg.types)
  else .ok ()

/-- `BaseMessageProcessor.ValidateScope` from `sv/message.go`. -/
def BaseMessageProcessor.ValidateScope (p : BaseMessageProcessor) (scope : String) :
    Except SvError Unit :=
  if !p.messageCfg.scope.values.isEmpty && !containsStr scope p.messageCfg.scope.values then
    .error (.invalidScope p.messageCfg.scope.values)
  else .ok ()

/-- `BaseMessageProcessor.ValidateDescription` from `sv/message.go`. -/
def BaseMessageProcessor.ValidateDescription (p : BaseMessageProcessor) (description : String) :
    Except SvError Unit :=
  if !validDescription description then .error (.invalidDescription description)
  else .ok ()

/-- `BaseMessageProcessor.Validate` from `sv/message.go` (with an empty
`header-selector`, `Parse` cannot fail, so its error branch drops out). -/
def BaseMessageProcessor.Validate (p : BaseMessageProcessor) (message : String) :
    Except SvError Unit :=
  let sb := splitCommitMessageContent message
  let msg := p.Parse sb.1 sb.2
  if !validSubject sb.1 then .error (.invalidSubject sb.1)
  else
    match p.ValidateType msg.type with
    | .error e => .error e
    | .ok _ =>
      match p.ValidateScope msg.scope with
      | .error e => .error e
      | .ok _ => p.ValidateDescription msg.description

/-- Example message-processor configuration: known types `feat`/`fix`, no
scope allow-list, no footers, no issue pattern. -/
def pEx : BaseMessageProcessor :=
  ⟨⟨["feat", "fix"], ⟨[]⟩, [], ⟨""⟩⟩, ⟨"", "", false, [], Option.none⟩⟩

/-- Every element kept by `takeWhile` satisfies the predicate. -/
theorem all_takeWhile_self {α} (p : α → Bool) (l : List α) :
    (l.takeWhile p).all p = true := by
  induction l with
  | nil => rfl
  | cons c t ih =>
    rw [List.takeWhile_cons]
    by_cases h : p c
    · simp [h, ih]
    · simp [h]

/-- `findPrefixIdx` returns the first position where the pattern occurs: the
pattern is a prefix of the suffix there, and of no earlier suffix. -/
theorem findPrefixIdx_spec (pat : List Char) :
    ∀ (l : List Char) (i : Nat), findPrefixIdx pat l = some i →
      pat.isPrefixOf (l.drop i) = true ∧
        ∀ j, j < i → pat.isPrefixOf (l.drop j) = false := by
  intro l
  induction l with
  | nil =>
    intro i h
    unfold findPrefixIdx at h
    by_cases hp : pat.isPrefixOf ([] : List Char)
    · simp only [hp, if_true, Option.some.injEq] at h
      subst h
      exact ⟨hp, fun j hj => absurd hj (Nat.not_lt_zero j)⟩
    · simp [hp] at h
  | cons c t ih =>
    intro i h
    unfold findPrefixIdx at h
    by_cases hp : pat.isPrefixOf (c :: t)
    · simp only [hp, if_true, Option.some.injEq] at h
      subst h
      exact ⟨hp, fun j hj => absurd hj (Nat.not_lt_zero j)⟩
    · simp only [hp, if_false, Bool.false_eq_true] at h
      cases hfi : findPrefixIdx pat t with
      | none => rw [hfi] at h; simp at h
      | some i' =>
        rw [hfi] at h
        simp at h
        subst h
        obtain ⟨h1, h2⟩ := ih i' hfi
        refine ⟨by simpa using h1, ?_⟩
        intro j hj
        cases j with
        | zero =>
          rw [List.drop_zero]
          cases hb : pat.isPrefixOf (c :: t)
          · rfl
          · exact absurd hb hp
        | succ j' =>
          have := h2 j' (by omega)
          simpa using this

/-- C3 counterexample: the subject pattern is not anchored. On the subject
`"x feat: add foo"` the anchored regex of the spec does not match (so the
claim predicts an empty type and the raw subject as description), but the code
finds the mid-string match and parses type `feat` with description `add foo`. -/
theorem parse_unanchored_counterexample :
    (pEx.Parse "x feat: add foo" "").type = "feat" ∧
    (pEx.Parse "x feat: add foo" "").description = "add foo" ∧
    parseSubjectMessageSpec "x feat: add foo" = ("", "", "x feat: add foo", false) := by
  decide

/-- C3 amended: `Parse` takes the subject fields from `parseSubjectMessage`,
i.e. from the leftmost (possibly mid-string) match of the unanchored pattern
`([a-z]+)(\((.*)\))?(!)?: (.*)`; the breaking flag is the bang of that match
unless a `BREAKING CHANGE` footer of the body overrides it; and if no match
exists anywhere in the subject, type and scope are empty and the description
is the whole subject. -/
theorem parse_subject_fields (p : BaseMessageProcessor) (subject body : String) :
    (p.Parse subject body).type = (parseSubjectMessage subject).1 ∧
    (p.Parse subject body).scope = (parseSubjectMessage subject).2.1 ∧
    (p.Parse subject body).description = (parseSubjectMessage subject).2.2.1 ∧
    (p.Parse subject body).isBreakingChange =
      (if extractFooterMetadata "BREAKING CHANGE" (removeCarriage body) false != "" then true
       else (parseSubjectMessage subject).2.2.2) ∧
    (subjectFind subject.data = Option.none →
      parseSubjectMessage subject = ("", "", subject, false)) := by
  refine ⟨rfl, rfl, rfl, rfl, ?_⟩
  intro h
  unfold parseSubjectMessage
  rw [h]

/-- C3 witness: on the matchless subject `"NOPE"` the no-match branch applies
and the description is the raw subject. -/
theorem parse_subject_fields_witness :
    parseSubjectMessage "NOPE" = ("", "", "NOPE", false) ∧
    (pEx.Parse "NOPE" "").description = "NOPE" := by
  refine ⟨(parse_subject_fields pEx "NOPE" "").2.2.2.2 (by decide), ?_⟩
  rw [(parse_subject_fields pEx "NOPE" "").2.2.1]
  decide

/-- C4 counterexample: the footer patterns are not line-anchored. With key
`issue` and text `"xissue: 42"` the code extracts `42` from a match starting
in the middle of the line, while the spec's line-anchored pattern finds
nothing. -/
theorem extractFooter_midline_counterexample :
    extractFooterMetadata "issue" "xissue: 42" false = "42" ∧
    extractFooterMetadataSpec "issue" "xissue: 42" false = "" := by
  decide

/-- C4 amended: a nonempty extraction comes from the first (leftmost)
occurrence of `key: ` (resp. `key #`) anywhere in the text, mid-line starts
included; the value is the rest of that physical line (hash style keeping the
leading `#`), so a match never spans more than one line. -/
theorem extractFooter_first_occurrence (key text : String) (useHash : Bool)
    (h : extractFooterMetadata key text useHash ≠ "") :
    (extractFooterMetadata key text useHash).data.all (fun c => c ≠ '\n') = true ∧
    ∃ i,
      ((if useHash then key ++ " #" else key ++ ": ").data.isPrefixOf (text.data.drop i)) = true ∧
      (∀ j, j < i →
        ((if useHash then key ++ " #" else key ++ ": ").data.isPrefixOf (text.data.drop j))
          = false) ∧
      extractFooterMetadata key text useHash =
        (if useHash then
          String.mk ('#' :: (text.data.drop (i + (key ++ " #").data.length)
            |>.takeWhile (fun c => c ≠ '\n')))
         else
          String.mk (text.data.drop (i + (key ++ ": ").data.length)
            |>.takeWhile (fun c => c ≠ '\n'))) := by
  cases hfi : findPrefixIdx (if useHash then key ++ " #" else key ++ ": ").data text.data with
  | none =>
    unfold extractFooterMetadata at h
    rw [hfi] at h
    exact absurd rfl h
  | some i =>
    obtain ⟨h1, h2⟩ := findPrefixIdx_spec _ _ _ hfi
    refine ⟨?_, i, h1, h2, ?_⟩
    · unfold extractFooterMetadata
      rw [hfi]
      by_cases hh : useHash
      · simp [hh, all_takeWhile_self]
      · simp [hh, all_takeWhile_self]
    · unfold extractFooterMetadata
      rw [hfi]

/-- C4 witness: with key `issue` and text `"body\nissue: 42"` (occurrence at
index 5) the amended description of the extractor holds concretely. -/
theorem extractFooter_first_occurrence_witness :
    (extractFooterMetadata "issue" "body\nissue: 42" false).data.all (fun c => c ≠ '\n') = true ∧
    ∃ i,
      (("issue: ").data.isPrefixOf (("body\nissue: 42").data.drop i)) = true ∧
      (∀ j, j < i →
        (("issue: ").data.isPrefixOf (("body\nissue: 42").data.drop j)) = false) ∧
      extractFooterMetadata "issue" "body\nissue: 42" false =
        String.mk
          (("body\nissue: 42").data.drop (i + ("issue: ").data.length)
            |>.takeWhile (fun c => c ≠ '\n')) := by
  have h := extractFooter_first_occurrence "issue" "body\nissue: 42" false (by decide)
  exact h

/-- C5 counterexample: `Validate` also requires the subject to match
`^[a-z+]+(\(.+\))?!?: .+$`. On the raw message `"Xfeat: add foo"` the parsed
type is `feat` (a known type), the scope allow-list is empty and the
description matches `^[a-z].*` — the claimed right-hand side holds — yet
`Validate` rejects the message at the subject check. -/
theorem validate_missing_subject_check :
    containsStr
        (pEx.Parse (splitCommitMessageContent "Xfeat: add foo").1
          (splitCommitMessageContent "Xfeat: add foo").2).type pEx.messageCfg.types = true ∧
    pEx.messageCfg.scope.values = [] ∧
    validDescriptionSpec
        (pEx.Parse (splitCommitMessageContent "Xfeat: add foo").1
          (splitCommitMessageContent "Xfeat: add foo").2).description = true ∧
    pEx.Validate "Xfeat: add foo" ≠ Except.ok () := by
  decide

/-- C5 amended: `Validate` succeeds iff the subject matches the anchored
pattern `^[a-z+]+(\(.+\))?!?: .+$` AND the parsed type is nonempty and in the
known types AND the scope allow-list is empty or contains the parsed scope AND
the parsed description matches `^[a-z]+.*$`. -/
theorem validate_ok_iff (p : BaseMessageProcessor) (message : String) :
    p.Validate message = Except.ok () ↔
      (validSubject (splitCommitMessageContent message).1 = true ∧
       ((p.Parse (splitCommitMessageContent message).1
          (splitCommitMessageContent message).2).type ≠ "" ∧
        containsStr
          (p.Parse (splitCommitMessageContent message).1
            (splitCommitMessageContent message).2).type p.messageCfg.types = true) ∧
       (p.messageCfg.scope.values = [] ∨
        containsStr
          (p.Parse (splitCommitMessageContent message).1
            (splitCommitMessageContent message).2).scope p.messageCfg.scope.values = true) ∧
       validDescription
         (p.Parse (splitCommitMessageContent message).1
           (splitCommitMessageContent message).2).description = true) := by
  unfold BaseMessageProcessor.Validate BaseMessageProcessor.ValidateType
    BaseMessageProcessor.ValidateScope BaseMessageProcessor.ValidateDescription
  by_cases hS : validSubject (splitCommitMessageContent message).1 <;>
    by_cases hT : (p.Parse (splitCommitMessageContent message).1
        (splitCommitMessageContent message).2).type = "" <;>
      by_cases hC : containsStr
          (p.Parse (splitCommitMessageContent message).1
            (splitCommitMessageContent message).2).type p.messageCfg.types <;>
        by_cases hE : p.messageCfg.scope.values.isEmpty <;>
          by_cases hSc : containsStr
              (p.Parse (splitCommitMessageContent message).1
                (splitCommitMessageContent message).2).scope p.messageCfg.scope.values <;>
            by_cases hD : validDescription
                (p.Parse (splitCommitMessageContent message).1
                  (splitCommitMessageContent message).2).description <;>
              simp_all [List.isEmpty_iff]

/-- C5 witness: the well-formed message `"feat: add foo"` satisfies all four
conditions, and `Validate` accepts it. -/
theorem validate_ok_iff_witness :
    pEx.Validate "feat: add foo" = Except.ok () :=
  (validate_ok_iff pEx "feat: add foo").mpr (by decide)

/-- C6: round trip of `"feat(scope)!: add x"` through `Parse` then `Format`:
the header re-emits type, scope and description without the bang, and the
breaking change reappears only as the `BREAKING CHANGE:` footer line. -/
theorem format_parse_roundtrip :
    pEx.Format (pEx.Parse "feat(scope)!: add x" "") =
      ("feat(scope): add x", "", "BREAKING CHANGE: add x") := by
  decide

/-- Abstract syntax for the regular-expression subset needed by Go's `regexp`
as used in `IssueID`: character classes (ranges with optional negation),
anchors, sequencing, alternation, star and numbered capture groups. -/
inductive RE where
  | eps : RE
  | cls (neg : Bool) (ranges : List (Char × Char)) : RE
  | bol : RE
  | eol : RE
  | seq (a b : RE) : RE
  | alt (a b : RE) : RE
  | star (r : RE) : RE
  | group (idx : Nat) (r : RE) : RE
deriving DecidableEq, Repr

/-- Character-class membership; a negated class matches everything outside
its ranges (newline included, as in Go). -/
def inCls (neg : Bool) (ranges : List (Char × Char)) (c : Char) : Bool :=
  let hit := ranges.any (fun r => r.1 ≤ c && c ≤ r.2)
  if neg then !hit else hit

/-- Ranges denoted by an escape such as `\d`, `\w`, `\s`; any other escaped
character stands for itself. -/
def classEscape (c : Char) : List (Char × Char) :=
  if c = 'd' then [('0', '9')]
  else if c = 'w' then [('a', 'z'), ('A', 'Z'), ('0', '9'), ('_', '_')]
  else if c = 's' then [(' ', ' '), ('\t', '\t'), ('\n', '\n'), ('\x0c', '\x0c'), ('\r', '\r')]
  else [(c, c)]

/-- Parse the items of a character class up to the closing bracket. (A
literal leading `]` is not supported.) -/
def parseClsItems : Nat → List Char → List (Char × Char) →
    Option (List (Char × Char) × List Char)
  | 0, _, _ => Option.none
  | fuel + 1, l, acc =>
    match l with
    | [] => Option.none
    | ']' :: t => some (acc.reverse, t)
    | '\\' :: c :: t => parseClsItems fuel t (classEscape c ++ acc)
    | a :: '-' :: ']' :: t => some ((('-', '-') :: (a, a) :: acc).reverse, t)
    | a :: '-' :: b :: t => parseClsItems fuel t ((a, b) :: acc)
    | a :: t => parseClsItems fuel t ((a, a) :: acc)

/-- Parse a character class after the opening bracket, handling negation. -/
def parseCls (fuel : Nat) (l : List Char) (g : Nat) : Option (RE × List Char × Nat) :=
  match l with
  | '^' :: t =>
    (match parseClsItems fuel t [] with
     | some r => some (.cls true r.1, r.2, g)
     | Option.none => Option.none)
  | _ =>
    (match parseClsItems fuel l [] with
     | some r => some (.cls false r.1, r.2, g)
     | Option.none => Option.none)

/-- Parser level selector: alternation, concatenation, quantified atom,
atom. -/
inductive PMode where
  | alt
  | cat
  | post
  | atom
deriving DecidableEq, Repr

/-- The regex parser, written as a single fuelled function over the level
selector (so that it reduces in the kernel). `alt` reads up to an unmatched
`)` or the end; `cat` is a run of quantified atoms; `post` allows at most one
of `?`, `*`, `+` after an atom (greedy; Go's lazy doubled quantifiers are
unsupported); `atom` handles groups, classes, dot, anchors, escapes and plain
characters. Returns the node, the remaining input and the next free group
number. -/
def parseRE : Nat → PMode → List Char → Nat → Option (RE × List Char × Nat)
  | 0, _, _, _ => Option.none
  | fuel + 1, mode, l, g =>
    match mode with
    | .alt =>
      (match parseRE fuel .cat l g with
       | Option.none => Option.none
       | some (r, rest, g') =>
         match rest with
         | '|' :: t =>
           (match parseRE fuel .alt t g' with
            | some (r2, rest2, g2) => some (.alt r r2, rest2, g2)
            | Option.none => Option.none)
         | _ => some (r, rest, g'))
    | .cat =>
      (match l with
       | [] => some (.eps, [], g)
       | ')' :: _ => some (.eps, l, g)
       | '|' :: _ => some (.eps, l, g)
       | _ =>
         match parseRE fuel .post l g with
         | Option.none => Option.none
         | some (r, rest, g') =>
           match parseRE fuel .cat rest g' with
           | Option.none => Option.none
           | some (r2, rest2, g2) => some (.seq r r2, rest2, g2))
    | .post =>
      (match parseRE fuel .atom l g with
       | Option.none => Option.none
       | some (r, rest, g') =>
         match rest with
         | '?' :: t => some (.alt r .eps, t, g')
         | '*' :: t => some (.star r, t, g')
         | '+' :: t => some (.seq r (.star r), t, g')
         | _ => some (r, rest, g'))
    | .atom =>
      (match l with
       | [] => Option.none
       | '(' :: t =>
         (match parseRE fuel .alt t (g + 1) with
          | some (r, ')' :: rest, g') => some (.group g r, rest, g')
          | _ => Option.none)
       | '[' :: t => parseCls fuel t g
       | '.' :: t => some (.cls true [('\n', '\n')], t, g)
       | '^' :: t => some (.bol, t, g)
       | '$' :: t => some (.eol, t, g)
       | '\\' :: c :: t => some (.cls false (classEscape c), t, g)
       | '?' :: _ => Option.none
       | '*' :: _ => Option.none
       | '+' :: _ => Option.none
       | ')' :: _ => Option.none
       | '|' :: _ => Option.none
       | c :: t => some (.cls false [(c, c)], t, g))

/-- `regexp.Compile`: parse the whole pattern; the group count is the final
counter minus one. Any leftover input (for example an unmatched `)`) or any
unsupported construct is a compile failure. -/
def compileRE (pattern : String) : Option (RE × Nat) :=
  match parseRE (pattern.length * 4 + 8) .alt pattern.data 1 with
  | some (r, [], g) => some (r, g - 1)
  | _ => Option.none

/-- Size of a regex term (used only to bound the matcher's fuel). -/
def reSize : RE → Nat
  | .eps => 1
  | .cls _ _ => 1
  | .bol => 1
  | .eol => 1
  | .seq a b => reSize a + reSize b + 1
  | .alt a b => reSize a + reSize b + 1
  | .star r => reSize r + 1
  | .group _ r => reSize r + 1

/-- Record a capture (last write wins, as Go keeps the final iteration). -/
def setCap (caps : List (Nat × List Char)) (i : Nat) (v : List Char) :
    List (Nat × List Char) :=
  (caps.filter (fun p => p.1 != i)) ++ [(i, v)]

/-- Backtracking matcher in continuation-passing style with Go/RE2 preference
order: alternation prefers its left arm, quantifiers are greedy. `n` is the
full input length (for `^`), `s` the remaining input. The star rule demands
progress on each iteration, which never removes a reachable match. -/
def reMatch : Nat → RE → Nat → List Char → List (Nat × List Char) →
    (List Char → List (Nat × List Char) → Option (List Char × List (Nat × List Char))) →
    Option (List Char × List (Nat × List Char))
  | 0, _, _, _, _, _ => Option.none
  | fuel + 1, re, n, s, caps, k =>
    match re with
    | .eps => k s caps
    | .bol => if s.length = n then k s caps else Option.none
    | .eol => if s.isEmpty then k s caps else Option.none
    | .cls neg ranges =>
      (match s with
       | [] => Option.none
       | c :: t => if inCls neg ranges c then k t caps else Option.none)
    | .seq a b => reMatch fuel a n s caps (fun s' caps' => reMatch fuel b n s' caps' k)
    | .alt a b =>
      (match reMatch fuel a n s caps k with
       | some res => some res
       | Option.none => reMatch fuel b n s caps k)
    | .star r =>
      (match reMatch fuel r n s caps
          (fun s' caps' =>
            if s'.length < s.length then reMatch fuel (.star r) n s' caps' k
            else Option.none) with
       | some res => some res
       | Option.none => k s caps)
    | .group i r =>
      reMatch fuel r n s caps
        (fun s' caps' => k s' (setCap caps' i (s.take (s.length - s'.length))))

/-- Assemble Go's submatch result list: the whole match (the consumed part of
the start suffix `s`) followed by the captures of groups `1..g`, the empty
string standing for a group that did not participate. -/
def submatchResult (g : Nat) (s rest : List Char) (caps : List (Nat × List Char)) :
    List String :=
  String.mk (s.take (s.length - rest.length)) ::
    (List.range g).map (fun i => String.mk ((caps.lookup (i + 1)).getD []))

/-- Scan start positions left to right; at the first position where the
pattern matches, return Go's `FindStringSubmatch` result list. -/
def findSubmatchFrom (r : RE) (g n fuel : Nat) : List Char → Option (List String)
  | [] =>
    match reMatch fuel r n [] [] (fun s' caps => some (s', caps)) with
    | some res => some (submatchResult g [] res.1 res.2)
    | Option.none => Option.none
  | c :: t =>
    match reMatch fuel r n (c :: t) [] (fun s' caps => some (s', caps)) with
    | some res => some (submatchResult g (c :: t) res.1 res.2)
    | Option.none => findSubmatchFrom r g n fuel t

/-- `Regexp.FindStringSubmatch` on a compiled pattern with `g` groups. -/
def findStringSubmatch (r : RE) (g : Nat) (s : String) : Option (List String) :=
  findSubmatchFrom r g s.length ((s.length + 2) * (reSize r + 2)) s.data

/-- The pattern string `IssueID` composes:
`fmt.Sprintf("^%s(%s)%s$", prefix, issueRegex, suffix)`. -/
def composedIssuePattern (p : BaseMessageProcessor) : String :=
  "^" ++ p.branchesCfg.prefixPattern ++ "(" ++ p.messageCfg.issue.regex ++ ")"
    ++ p.branchesCfg.suffixPattern ++ "$"

/-- `BaseMessageProcessor.IssueID` from `sv/message.go`: disabled issue
handling or an empty issue pattern yield an empty id without error; a pattern
that fails to compile is a configuration error; a match with exactly four
entries (whole match plus three groups) selects entry 2, the issue group; any
other shape (no match included) yields the empty id without error. -/
def BaseMessageProcessor.IssueID (p : BaseMessageProcessor) (branch : String) :
    Except SvError String :=
  if p.branchesCfg.disableIssue || p.messageCfg.issue.regex == "" then .ok ""
  else
    match compileRE (composedIssuePattern p) with
    | Option.none => .error (.invalidIssueRegex (composedIssuePattern p))
    | some rg =>
      if ((findStringSubmatch rg.1 rg.2 branch).getD []).length == 4 then
        .ok (((findStringSubmatch rg.1 rg.2 branch).getD []).getD 2 "")
      else .ok ""

/-- The issue-resolution example configuration: issue pattern
`[A-Z]+-[0-9]+`, branch prefix `([a-z]+\/)?`, branch suffix `(-.*)?`. -/
def pIssueEx : BaseMessageProcessor :=
  ⟨⟨["feat"], ⟨[]⟩, [], ⟨"[A-Z]+-[0-9]+"⟩⟩, ⟨"([a-z]+\\/)?", "(-.*)?", false, [], Option.none⟩⟩

/-- A configuration whose issue pattern `(` makes the composed pattern
`^(()$` fail to compile. -/
def pBadIssue : BaseMessageProcessor :=
  ⟨⟨["feat"], ⟨[]⟩, [], ⟨"("⟩⟩, ⟨"", "", false, [], Option.none⟩⟩

/-- C7: `IssueID` returns an empty id without error when issue handling is
disabled or no pattern is configured; a compile failure of the composed
anchored pattern is reported as a configuration error; a match with exactly
four entries (whole match, prefix group, issue group, suffix group) returns
the issue group (entry 2); any other shape, no match included, returns an
empty id without error. Concretely, branch `feature/JIRA-123-fix` against
issue pattern `[A-Z]+-[0-9]+` with prefix `([a-z]+\/)?` and suffix `(-.*)?`
resolves to `JIRA-123`. -/
theorem issueID_spec (p : BaseMessageProcessor) (branch : String) :
    ((p.branchesCfg.disableIssue = true ∨ p.messageCfg.issue.regex = "") →
      p.IssueID branch = .ok "") ∧
    (p.branchesCfg.disableIssue = false → p.messageCfg.issue.regex ≠ "" →
      (compileRE (composedIssuePattern p) = Option.none →
        p.IssueID branch = .error (.invalidIssueRegex (composedIssuePattern p))) ∧
      (∀ rg, compileRE (composedIssuePattern p) = some rg →
        (∀ groups, findStringSubmatch rg.1 rg.2 branch = some groups →
          ((groups.length = 4 → p.IssueID branch = .ok (groups.getD 2 "")) ∧
           (groups.length ≠ 4 → p.IssueID branch = .ok ""))) ∧
        (findStringSubmatch rg.1 rg.2 branch = Option.none →
          p.IssueID branch = .ok ""))) ∧
    pIssueEx.IssueID "feature/JIRA-123-fix" = .ok "JIRA-123" := by
  refine ⟨?_, ?_, by decide⟩
  · intro h
    unfold BaseMessageProcessor.IssueID
    rcases h with h | h
    · simp [h]
    · simp [h]
  · intro h1 h2
    have hcond : (p.branchesCfg.disableIssue || p.messageCfg.issue.regex == "") = false := by
      simp [h1, h2]
    constructor
    · intro hc
      unfold BaseMessageProcessor.IssueID
      rw [hcond, hc]
      rfl
    · intro rg hrg
      constructor
      · intro groups hg
        constructor
        · intro h4
          unfold BaseMessageProcessor.IssueID
          rw [hcond, hrg]
          simp [hg, h4]
        · intro h4
          unfold BaseMessageProcessor.IssueID
          rw [hcond, hrg]
          simp [hg, h4]
      · intro hnone
        unfold BaseMessageProcessor.IssueID
        rw [hcond, hrg]
        simp [hnone]

/-- C7 witness: the empty-id, configuration-error and issue-group outcomes at
concrete inputs, each obtained from the branch description above. -/
theorem issueID_spec_witness :
    pIssueEx.IssueID "feature/JIRA-123-fix" = .ok "JIRA-123" ∧
    pEx.IssueID "whatever" = .ok "" ∧
    pBadIssue.IssueID "x" = .error (.invalidIssueRegex "^(()$") := by
  refine ⟨(issueID_spec pIssueEx "feature/JIRA-123-fix").2.2,
    (issueID_spec pEx "whatever").1 (Or.inr rfl), ?_⟩
  exact ((issueID_spec pBadIssue "x").2.1 rfl (by decide)).1 rfl

/-- `ReleaseNotesSectionConfig` from `sv/releasenotes.go`. -/
structure ReleaseNotesSectionConfig where
  name : String
  sectionType : String
  commitTypes : List String
deriving DecidableEq, Repr

/-- `ReleaseNotesConfig` from `sv/releasenotes.go`. -/
structure ReleaseNotesConfig where
  sections : List ReleaseNotesSectionConfig
deriving DecidableEq, Repr

/-- `ReleaseNotesConfig.sectionConfig`: the first configured section of the
given section type. -/
def ReleaseNotesConfig.sectionConfig (cfg : ReleaseNotesConfig) (sectionType : String) :
    Option ReleaseNotesSectionConfig :=
  cfg.sections.find? (fun s => s.sectionType == sectionType)

/-- `ReleaseNoteCommitsSection` from `sv/releasenotes.go`. -/
structure ReleaseNoteCommitsSection where
  name : String
  types : List String
  items : List CommitLog
deriving DecidableEq, Repr

/-- `ReleaseNoteBreakingChangeSection` from `sv/releasenotes.go`. -/
structure ReleaseNoteBreakingChangeSection where
  name : String
  messages : List String
deriving DecidableEq, Repr

/-- The `ReleaseNoteSection` interface: a tagged union of its two
implementations. -/
inductive ReleaseNoteSection where
  | commitsSection (s : ReleaseNoteCommitsSection)
  | breakingSection (s : ReleaseNoteBreakingChangeSection)
deriving DecidableEq, Repr

/-- `ReleaseNote` from `sv/releasenotes.go`; the author set is modelled as the
insertion-ordered list of distinct names, and the date (which the Go code only
truncates to minute granularity) is kept as an opaque string. -/
structure ReleaseNote where
  version : Option Version
  tag : String
  date : String
  sections : List ReleaseNoteSection
  authorsNames : List String
deriving DecidableEq, Repr

/-- Overwriting insert for a Go map modelled as an association list. -/
def putAssoc {α : Type} (m : List (String × α)) (k : String) (v : α) : List (String × α) :=
  (m.filter (fun p => p.1 != k)) ++ [(k, v)]

/-- `commitSectionMapping` from `sv/releasenotes.go`: commit type to owning
commits-section config, scanned in declaration order, a later section
overwriting an earlier one for a repeated type (Go map assignment). -/
def commitSectionMapping (sections : List ReleaseNotesSectionConfig) :
    List (String × ReleaseNotesSectionConfig) :=
  sections.foldl
    (fun mapping sc =>
      if sc.sectionType == "commits" then
        sc.commitTypes.foldl (fun m ct => putAssoc m ct sc) mapping
      else mapping)
    []

/-- `CommitMessage.BreakingMessage` from `sv/message.go`. -/
def CommitMessage.breakingMessage (m : CommitMessage) : String :=
  mdGet m.metadata "breaking-change"

/-- Accumulator of the commit loop in `Create`: the name-keyed commits
sections, the author set and the collected breaking-change messages. -/
structure CreateAcc where
  sections : List (String × ReleaseNoteCommitsSection)
  authors : List String
  breakingChanges : List String
deriving DecidableEq, Repr

/-- The sections update of one iteration of the commit loop in `Create`: a
commit whose type is mapped is appended to its section's item list, the
section being created lazily. -/
def createStepSections (mapping : List (String × ReleaseNotesSectionConfig))
    (sections : List (String × ReleaseNoteCommitsSection)) (commit : CommitLog) :
    List (String × ReleaseNoteCommitsSection) :=
  match mapping.lookup commit.message.type with
  | some sectionCfg =>
    putAssoc sections sectionCfg.name
      { (sections.lookup sectionCfg.name).getD
          ⟨sectionCfg.name, sectionCfg.commitTypes, []⟩ with
        items := ((sections.lookup sectionCfg.name).getD
          ⟨sectionCfg.name, sectionCfg.commitTypes, []⟩).items ++ [commit] }
  | Option.none => sections

/-- The breaking-change update of one iteration of the commit loop. -/
def bcStep (bcs : List String) (c : CommitLog) : List String :=
  if c.message.isBreakingChange then bcs ++ [c.message.breakingMessage] else bcs

/-- One iteration of the commit loop in `Create`. -/
def createStep (mapping : List (String × ReleaseNotesSectionConfig))
    (acc : CreateAcc) (commit : CommitLog) : CreateAcc :=
  ⟨createStepSections mapping acc.sections commit,
   if acc.authors.contains commit.authorName then acc.authors
   else acc.authors ++ [commit.authorName],
   bcStep acc.breakingChanges commit⟩

/-- The breaking-change section assembled by `Create`: present (with the
configured name) only when a breaking-changes section is configured and at
least one message was collected; the zero value otherwise. -/
def breakingSectionOf (cfg : ReleaseNotesConfig) (bcs : List String) :
    ReleaseNoteBreakingChangeSection :=
  match cfg.sectionConfig "breaking-changes" with
  | some bcCfg => if !bcs.isEmpty then ⟨bcCfg.name, bcs⟩ else ⟨"", []⟩
  | Option.none => ⟨"", []⟩

/-- One iteration of the emission loop of `toReleaseNoteSections`. -/
def emitStep (commitSections : List (String × ReleaseNoteCommitsSection))
    (breaking : ReleaseNoteBreakingChangeSection)
    (acc : List ReleaseNoteSection) (sc : ReleaseNotesSectionConfig) :
    List ReleaseNoteSection :=
  match commitSections.lookup sc.name with
  | some s =>
    if sc.sectionType == "commits" then
      (if sc.sectionType == "breaking-changes" && breaking.name != "" then
        acc ++ [.breakingSection breaking]
       else acc) ++ [.commitsSection s]
    else
      (if sc.sectionType == "breaking-changes" && breaking.name != "" then
        acc ++ [.breakingSection breaking]
       else acc)
  | Option.none =>
    if sc.sectionType == "breaking-changes" && breaking.name != "" then
      acc ++ [.breakingSection breaking]
    else acc

/-- `toReleaseNoteSections` from `sv/releasenotes.go`, with the pre-sized
array replaced by appends (same output whenever the Go index arithmetic stays
in bounds): walk the configured sections in order, emitting the breaking
section where its entry sits (when it got a name) and each commits section
that collected items. -/
def toReleaseNoteSectionsList (cfg : ReleaseNotesConfig)
    (commitSections : List (String × ReleaseNoteCommitsSection))
    (breaking : ReleaseNoteBreakingChangeSection) : List ReleaseNoteSection :=
  cfg.sections.foldl (emitStep commitSections breaking) []

/-- `BaseReleaseNoteProcessor` from `sv/releasenotes.go`. -/
structure BaseReleaseNoteProcessor where
  cfg : ReleaseNotesConfig
deriving DecidableEq, Repr

/-- `BaseReleaseNoteProcessor.Create` from `sv/releasenotes.go`: one pass over
the commits collecting authors, section items and breaking messages, then the
ordered section emission. -/
def BaseReleaseNoteProcessor.Create (p : BaseReleaseNoteProcessor)
    (version : Option Version) (tag date : String) (commits : List CommitLog) :
    ReleaseNote :=
  { version := version, tag := tag, date := date,
    sections := toReleaseNoteSectionsList p.cfg
      (commits.foldl (createStep (commitSectionMapping p.cfg.sections)) ⟨[], [], []⟩).sections
      (breakingSectionOf p.cfg
        (commits.foldl (createStep (commitSectionMapping p.cfg.sections))
          ⟨[], [], []⟩).breakingChanges),
    authorsNames :=
      (commits.foldl (createStep (commitSectionMapping p.cfg.sections)) ⟨[], [], []⟩).authors }

/-- A release-note section that has content. -/
def sectionNonEmpty : ReleaseNoteSection → Prop
  | .commitsSection s => s.items ≠ []
  | .breakingSection s => s.messages ≠ []

/-- An association-list lookup hit is a member. -/
theorem lookup_mem {β : Type} {l : List (String × β)} {k : String} {v : β}
    (h : l.lookup k = some v) : (k, v) ∈ l := by
  induction l with
  | nil => simp [List.lookup] at h
  | cons p t ih =>
    cases p with
    | mk k' v' =>
      unfold List.lookup at h
      cases hk : (k == k') with
      | true =>
        rw [hk] at h
        simp only [Option.some.injEq] at h
        subst h
        have : k = k' := eq_of_beq hk
        subst this
        exact List.mem_cons_self _ _
      | false =>
        rw [hk] at h
        exact List.mem_cons_of_mem _ (ih h)

/-- The commit-loop sections update only adds entries for mapped commit
types: any entry of the result was already there or carries the name of the
section config owning the commit's type. -/
theorem stepSections_mem (mapping : List (String × ReleaseNotesSectionConfig))
    (sections : List (String × ReleaseNoteCommitsSection)) (commit : CommitLog) :
    ∀ e ∈ createStepSections mapping sections commit,
      e ∈ sections ∨ ∃ cfgS, mapping.lookup commit.message.type = some cfgS ∧
        e.1 = cfgS.name := by
  intro e he
  unfold createStepSections at he
  cases hm : mapping.lookup commit.message.type with
  | none => rw [hm] at he; exact Or.inl he
  | some cfgS =>
    rw [hm] at he
    unfold putAssoc at he
    rcases List.mem_append.mp he with h1 | h2
    · exact Or.inl (List.mem_of_mem_filter h1)
    · right
      have h3 := List.mem_singleton.mp h2
      subst h3
      exact ⟨cfgS, rfl, rfl⟩

/-- The commit-loop sections update keeps every item list nonempty. -/
theorem stepSections_nonempty (mapping : List (String × ReleaseNotesSectionConfig))
    (sections : List (String × ReleaseNoteCommitsSection)) (commit : CommitLog)
    (h : ∀ e ∈ sections, e.2.items ≠ []) :
    ∀ e ∈ createStepSections mapping sections commit, e.2.items ≠ [] := by
  intro e he
  unfold createStepSections at he
  cases hm : mapping.lookup commit.message.type with
  | none => rw [hm] at he; exact h e he
  | some cfgS =>
    rw [hm] at he
    unfold putAssoc at he
    rcases List.mem_append.mp he with h1 | h2
    · exact h e (List.mem_of_mem_filter h1)
    · have h3 := List.mem_singleton.mp h2
      subst h3
      simp

/-- The commit-loop sections update keeps each entry's section name equal to
its key. -/
theorem stepSections_nameKey (mapping : List (String × ReleaseNotesSectionConfig))
    (sections : List (String × ReleaseNoteCommitsSection)) (commit : CommitLog)
    (h : ∀ e ∈ sections, e.2.name = e.1) :
    ∀ e ∈ createStepSections mapping sections commit, e.2.name = e.1 := by
  intro e he
  unfold createStepSections at he
  cases hm : mapping.lookup commit.message.type with
  | none => rw [hm] at he; exact h e he
  | some cfgS =>
    rw [hm] at he
    unfold putAssoc at he
    rcases List.mem_append.mp he with h1 | h2
    · exact h e (List.mem_of_mem_filter h1)
    · have h3 := List.mem_singleton.mp h2
      subst h3
      cases hl : sections.lookup cfgS.name with
      | none => simp [hl]
      | some v =>
        have hv : v.name = cfgS.name := h (cfgS.name, v) (lookup_mem hl)
        simp [hl, hv]

/-- Folding the commit loop preserves nonempty item lists. -/
theorem foldl_sections_nonempty (mapping : List (String × ReleaseNotesSectionConfig))
    (commits : List CommitLog) :
    ∀ sections, (∀ e ∈ sections, e.2.items ≠ []) →
      ∀ e ∈ commits.foldl (createStepSections mapping) sections, e.2.items ≠ [] := by
  induction commits with
  | nil => intro s h; exact h
  | cons c cs ih =>
    intro s h
    simp only [List.foldl_cons]
    exact ih _ (stepSections_nonempty mapping s c h)

/-- Folding the commit loop preserves the key-name agreement. -/
theorem foldl_sections_nameKey (mapping : List (String × ReleaseNotesSectionConfig))
    (commits : List CommitLog) :
    ∀ sections, (∀ e ∈ sections, e.2.name = e.1) →
      ∀ e ∈ commits.foldl (createStepSections mapping) sections, e.2.name = e.1 := by
  induction commits with
  | nil => intro s h; exact h
  | cons c cs ih =>
    intro s h
    simp only [List.foldl_cons]
    exact ih _ (stepSections_nameKey mapping s c h)

/-- Provenance of section entries accumulated by the commit loop: each comes
from the initial map or from some commit whose type is mapped to a section
config with the entry's name. -/
theorem foldl_sections_mem (mapping : List (String × ReleaseNotesSectionConfig))
    (commits : List CommitLog) :
    ∀ sections e, e ∈ commits.foldl (createStepSections mapping) sections →
      e ∈ sections ∨ ∃ c, c ∈ commits ∧ ∃ cfgS,
        mapping.lookup c.message.type = some cfgS ∧ e.1 = cfgS.name := by
  induction commits with
  | nil => intro s e he; exact Or.inl he
  | cons c cs ih =>
    intro s e he
    simp only [List.foldl_cons] at he
    rcases ih _ e he with h1 | h2
    · rcases stepSections_mem mapping s c e h1 with ha | hb
      · exact Or.inl ha
      · rcases hb with ⟨cfgS, h3, h4⟩
        exact Or.inr ⟨c, List.mem_cons_self _ _, cfgS, h3, h4⟩
    · rcases h2 with ⟨c', hc', rest⟩
      exact Or.inr ⟨c', List.mem_cons_of_mem _ hc', rest⟩


/-- The sections component of the commit loop is the fold of its sections
update. -/
theorem foldl_createStep_sections (mapping : List (String × ReleaseNotesSectionConfig))
    (commits : List CommitLog) :
    ∀ acc : CreateAcc, (commits.foldl (createStep mapping) acc).sections =
      commits.foldl (createStepSections mapping) acc.sections := by
  induction commits with
  | nil => intro acc; rfl
  | cons c cs ih =>
    intro acc
    simp only [List.foldl_cons]
    exact ih _

/-- The breaking-change component of the commit loop is the fold of its
breaking-change update. -/
theorem foldl_createStep_breaking (mapping : List (String × ReleaseNotesSectionConfig))
    (commits : List CommitLog) :
    ∀ acc : CreateAcc, (commits.foldl (createStep mapping) acc).breakingChanges =
      commits.foldl bcStep acc.breakingChanges := by
  induction commits with
  | nil => intro acc; rfl
  | cons c cs ih =>
    intro acc
    simp only [List.foldl_cons]
    exact ih _

/-- With no breaking commit, the breaking-change collection is untouched. -/
theorem foldl_bcStep_nil (commits : List CommitLog)
    (h : ∀ c ∈ commits, c.message.isBreakingChange = false) :
    ∀ bcs, commits.foldl bcStep bcs = bcs := by
  induction commits with
  | nil => intro bcs; rfl
  | cons c cs ih =>
    intro bcs
    simp only [List.foldl_cons]
    have hc : bcStep bcs c = bcs := by
      unfold bcStep
      rw [h c (List.mem_cons_self _ _)]
      rfl
    rw [hc]
    exact ih (fun c' hc' => h c' (List.mem_cons_of_mem _ hc')) bcs

/-- A breaking-change section that got a name carries exactly the collected
messages, which are nonempty. -/
theorem breakingSectionOf_name (cfg : ReleaseNotesConfig) (bcs : List String)
    (h : (breakingSectionOf cfg bcs).name ≠ "") :
    (breakingSectionOf cfg bcs).messages = bcs ∧ bcs ≠ [] := by
  unfold breakingSectionOf at *
  cases hc : cfg.sectionConfig "breaking-changes" with
  | none => rw [hc] at h; exact absurd rfl h
  | some bcCfg =>
    rw [hc] at h
    by_cases he : bcs.isEmpty
    · simp [he] at h
    · constructor
      · simp [he]
      · simpa using he

/-- With no collected message the breaking-change section keeps the zero
value, in particular an empty name. -/
theorem breakingSectionOf_nil (cfg : ReleaseNotesConfig) :
    (breakingSectionOf cfg []).name = "" := by
  unfold breakingSectionOf
  cases cfg.sectionConfig "breaking-changes" with
  | none => rfl
  | some bcCfg => rfl

/-- Membership in one emission step: an element was accumulated before, is
the breaking section (only when it has a name), or is a commits section the
map holds under this config entry's name. -/
theorem emitStep_mem (commitSections : List (String × ReleaseNoteCommitsSection))
    (breaking : ReleaseNoteBreakingChangeSection) (acc : List ReleaseNoteSection)
    (sc : ReleaseNotesSectionConfig) :
    ∀ s ∈ emitStep commitSections breaking acc sc,
      s ∈ acc ∨ (s = .breakingSection breaking ∧ breaking.name ≠ "") ∨
      (sc.sectionType = "commits" ∧ ∃ cs, commitSections.lookup sc.name = some cs ∧
        s = .commitsSection cs) := by
  intro s hs
  unfold emitStep at hs
  cases hl : commitSections.lookup sc.name with
  | none =>
    rw [hl] at hs
    dsimp only at hs
    by_cases hb : (sc.sectionType == "breaking-changes" && breaking.name != "") = true
    · rw [if_pos hb] at hs
      rcases List.mem_append.mp hs with h1 | h2
      · exact Or.inl h1
      · have h3 := List.mem_singleton.mp h2
        refine Or.inr (Or.inl ⟨h3, ?_⟩)
        have := (Bool.and_eq_true _ _).mp hb
        simpa using this.2
    · rw [if_neg hb] at hs
      exact Or.inl hs
  | some cs =>
    rw [hl] at hs
    dsimp only at hs
    by_cases hc : (sc.sectionType == "commits") = true
    · rw [if_pos hc] at hs
      have hc' : sc.sectionType = "commits" := by simpa using hc
      rcases List.mem_append.mp hs with h1 | h2
      · by_cases hb : (sc.sectionType == "breaking-changes" && breaking.name != "") = true
        · rw [if_pos hb] at h1
          rcases List.mem_append.mp h1 with h3 | h4
          · exact Or.inl h3
          · have h5 := List.mem_singleton.mp h4
            refine Or.inr (Or.inl ⟨h5, ?_⟩)
            have := (Bool.and_eq_true _ _).mp hb
            simpa using this.2
        · rw [if_neg hb] at h1
          exact Or.inl h1
      · have h3 := List.mem_singleton.mp h2
        exact Or.inr (Or.inr ⟨hc', cs, rfl, h3⟩)
    · rw [if_neg hc] at hs
      by_cases hb : (sc.sectionType == "breaking-changes" && breaking.name != "") = true
      · rw [if_pos hb] at hs
        rcases List.mem_append.mp hs with h1 | h2
        · exact Or.inl h1
        · have h3 := List.mem_singleton.mp h2
          refine Or.inr (Or.inl ⟨h3, ?_⟩)
          have := (Bool.and_eq_true _ _).mp hb
          simpa using this.2
      · rw [if_neg hb] at hs
        exact Or.inl hs

/-- Membership in the emission fold: every produced section is the breaking
one (named) or a commits section held by the map under some configured
commits entry's name. -/
theorem toSections_mem (secs : List ReleaseNotesSectionConfig)
    (commitSections : List (String × ReleaseNoteCommitsSection))
    (breaking : ReleaseNoteBreakingChangeSection) :
    ∀ acc s, s ∈ secs.foldl (emitStep commitSections breaking) acc →
      s ∈ acc ∨ (s = .breakingSection breaking ∧ breaking.name ≠ "") ∨
      (∃ sc, sc ∈ secs ∧ sc.sectionType = "commits" ∧
        ∃ cs, commitSections.lookup sc.name = some cs ∧ s = .commitsSection cs) := by
  induction secs with
  | nil => intro acc s hs; exact Or.inl hs
  | cons sc rest ih =>
    intro acc s hs
    simp only [List.foldl_cons] at hs
    rcases ih _ s hs with h1 | h2 | h3
    · rcases emitStep_mem commitSections breaking acc sc s h1 with ha | hb | hc
      · exact Or.inl ha
      · exact Or.inr (Or.inl hb)
      · rcases hc with ⟨hty, cs, hl, hseq⟩
        exact Or.inr (Or.inr ⟨sc, List.mem_cons_self _ _, hty, cs, hl, hseq⟩)
    · exact Or.inr (Or.inl h2)
    · rcases h3 with ⟨sc', hsc', rest'⟩
      exact Or.inr (Or.inr ⟨sc', List.mem_cons_of_mem _ hsc', rest'⟩)

/-- C9: the assembled release note has no empty section: a configured commits
section with no commit mapped to it never appears, and the breaking-changes
section is absent when no breaking-change message was collected. -/
theorem releaseNote_no_empty_sections (cfg : ReleaseNotesConfig)
    (version : Option Version) (tag date : String) (commits : List CommitLog) :
    (∀ s ∈ ((⟨cfg⟩ : BaseReleaseNoteProcessor).Create version tag date commits).sections,
      sectionNonEmpty s) ∧
    ((∀ c ∈ commits, c.message.isBreakingChange = false) →
      ∀ rs, ReleaseNoteSection.breakingSection rs ∉
        ((⟨cfg⟩ : BaseReleaseNoteProcessor).Create version tag date commits).sections) ∧
    (∀ sc ∈ cfg.sections, sc.sectionType = "commits" →
      (∀ c ∈ commits, ∀ cfgS,
        (commitSectionMapping cfg.sections).lookup c.message.type = some cfgS →
          cfgS.name ≠ sc.name) →
      ∀ cs : ReleaseNoteCommitsSection, cs.name = sc.name →
        ReleaseNoteSection.commitsSection cs ∉
          ((⟨cfg⟩ : BaseReleaseNoteProcessor).Create version tag date commits).sections) := by
  have hsec := foldl_createStep_sections (commitSectionMapping cfg.sections) commits
    ⟨[], [], []⟩
  have hbc := foldl_createStep_breaking (commitSectionMapping cfg.sections) commits
    ⟨[], [], []⟩
  refine ⟨?_, ?_, ?_⟩
  · intro s hs
    rcases toSections_mem cfg.sections _ _ _ s hs with h0 | ⟨hseq, hname⟩ | ⟨sc, _, _, cs, hl, hseq⟩
    · simp at h0
    · subst hseq
      obtain ⟨hmsgs, hne⟩ := breakingSectionOf_name _ _ hname
      intro hcontra
      exact hne (hmsgs ▸ hcontra)
    · subst hseq
      have hmem := lookup_mem hl
      rw [hsec] at hmem
      exact foldl_sections_nonempty _ commits [] (by intro e he; simp at he) _ hmem
  · intro hnb rs hmem
    rcases toSections_mem cfg.sections _ _ _ _ hmem with h0 | ⟨hseq, hname⟩ | ⟨sc, _, _, cs, hl, hseq⟩
    · simp at h0
    · rw [hbc, foldl_bcStep_nil commits hnb] at hname
      exact hname (breakingSectionOf_nil cfg)
    · exact ReleaseNoteSection.noConfusion hseq
  · intro sc hsc hty hno cs hname hmem
    rcases toSections_mem cfg.sections _ _ _ _ hmem with h0 | ⟨hseq, _⟩ | ⟨sc', _, _, cs', hl, hseq⟩
    · simp at h0
    · exact ReleaseNoteSection.noConfusion hseq
    · have hcs : cs' = cs := ((ReleaseNoteSection.commitsSection.injEq _ _).mp hseq).symm
      rw [hcs] at hl
      have hmem' := lookup_mem hl
      rw [hsec] at hmem'
      have hkey : cs.name = sc'.name :=
        foldl_sections_nameKey _ commits [] (by intro e he; simp at he) _ hmem'
      rcases foldl_sections_mem _ commits [] _ hmem' with h0 | ⟨c, hc, cfgS, hlk, hkey2⟩
      · simp at h0
      · refine hno c hc cfgS hlk ?_
        rw [← hkey2, ← hkey]
        exact hname

/-- Example release-note configuration: a commits section for `feat` and a
breaking-changes section. -/
def rnCfgEx : ReleaseNotesConfig :=
  ⟨[⟨"Features", "commits", ["feat"]⟩, ⟨"Breaking Changes", "breaking-changes", []⟩]⟩

/-- C9 witness: with a single non-breaking `fix` commit (whose type is mapped
to no section), neither a breaking-changes section nor the empty `Features`
section appears in the assembled release note. -/
theorem releaseNote_no_empty_sections_witness :
    ReleaseNoteSection.breakingSection ⟨"Breaking Changes", ["boom"]⟩ ∉
      ((⟨rnCfgEx⟩ : BaseReleaseNoteProcessor).Create (some ⟨1, 0, 0, "", ""⟩) "v1.0.0"
        "2024-01-01" [logFix]).sections ∧
    ReleaseNoteSection.commitsSection ⟨"Features", ["feat"], []⟩ ∉
      ((⟨rnCfgEx⟩ : BaseReleaseNoteProcessor).Create (some ⟨1, 0, 0, "", ""⟩) "v1.0.0"
        "2024-01-01" [logFix]).sections := by
  constructor
  · exact (releaseNote_no_empty_sections rnCfgEx (some ⟨1, 0, 0, "", ""⟩) "v1.0.0"
      "2024-01-01" [logFix]).2.1 (by decide) ⟨"Breaking Changes", ["boom"]⟩
  · refine (releaseNote_no_empty_sections rnCfgEx (some ⟨1, 0, 0, "", ""⟩) "v1.0.0"
      "2024-01-01" [logFix]).2.2 ⟨"Features", "commits", ["feat"]⟩ (by decide) rfl ?_
      ⟨"Features", ["feat"], []⟩ rfl
    intro c hc cfgS hl
    rw [List.mem_singleton] at hc
    subst hc
    rw [show (commitSectionMapping rnCfgEx.sections).lookup logFix.message.type
      = Option.none from rfl] at hl
    exact Option.noConfusion hl

end GitSv
